import Mathlib

/-!
Verification of the drg-mod-tools specification against a shallow embedding of
the two binaries (`mod_lint.rs`, `modio_audit.rs`).

Strings are compared through their character lists because the Rust code
compares `String`s byte-wise, which agrees with code-point order on UTF-8.
`BTreeMap`/`BTreeSet` values are embedded as key-sorted association lists and
sorted lists; `HashMap`/`HashSet` iteration order is environment dependent in
Rust, so every function that consumes such an order takes the enumeration as an
explicit parameter constrained to be a permutation of the underlying elements.
-/

namespace DrgModTools

/-- Byte-wise (code-point) strict order on character lists, mirroring Rust's
`Ord for String`. -/
def charListLt : List Char → List Char → Bool
  | [], [] => false
  | [], _ :: _ => true
  | _ :: _, [] => false
  | a :: as, b :: bs => if a < b then true else if b < a then false else charListLt as bs

/-- Strict order on strings via their character lists. -/
def strLt (a b : String) : Bool := charListLt a.data b.data

/-- Splits a character list at every occurrence of `c`; the separators are
dropped and empty pieces are kept (auxiliary accumulator form). -/
def splitOnCharAux (c : Char) : List Char → List Char → List (List Char)
  | [], cur => [cur.reverse]
  | x :: xs, cur =>
    if x = c then cur.reverse :: splitOnCharAux c xs []
    else splitOnCharAux c xs (x :: cur)

/-- Splits a character list at every occurrence of `c`. -/
def splitOnChar (c : Char) (s : List Char) : List (List Char) := splitOnCharAux c s []

/-- Joins pieces with a single `c` between consecutive pieces. -/
def joinWithChar (c : Char) : List (List Char) → List Char
  | [] => []
  | [s] => s
  | s :: rest => s ++ c :: joinWithChar c rest

/-! ### Sorted-collection helpers (the embedding of `BTreeSet`/`BTreeMap`) -/

/-- `BTreeSet<String>::insert`: insert into a sorted duplicate-free list. -/
def setInsert (x : String) : List String → List String
  | [] => [x]
  | y :: ys => if strLt x y then x :: y :: ys else if x = y then y :: ys else y :: setInsert x ys

/-- Association-list lookup by key (the embedding of `BTreeMap::get`). -/
def lookupM (k : String) : List (String × α) → Option α
  | [] => none
  | (k', v) :: rest => if k = k' then some v else lookupM k rest

/-- `BTreeMap::insert`: insert or overwrite, keeping keys sorted. -/
def mapInsert (k : String) (v : α) : List (String × α) → List (String × α)
  | [] => [(k, v)]
  | (k', v') :: rest =>
    if strLt k k' then (k, v) :: (k', v') :: rest
    else if k = k' then (k', v) :: rest
    else (k', v') :: mapInsert k v rest

/-- `map.entry(k).or_default().insert(c)` on a `BTreeMap<String, BTreeSet<String>>`. -/
def edgeInsert (k c : String) : List (String × List String) → List (String × List String)
  | [] => [(k, [c])]
  | (k', v) :: rest =>
    if strLt k k' then (k, [c]) :: (k', v) :: rest
    else if k = k' then (k', setInsert c v) :: rest
    else (k', v) :: edgeInsert k c rest

/-! ### Path model

`typed_path::Utf8UnixPath` components: a leading `/` yields a root component,
`.` and `..` yield the current/parent components, and everything else is a
normal named component. -/

inductive PakComponent where
  | rootDir
  | curDir
  | parentDir
  | normal (s : String)
deriving DecidableEq, Repr

/-- Classification of one non-empty path segment. -/
def classifySeg (s : List Char) : PakComponent :=
  if s = ['.', '.'] then PakComponent.parentDir else PakComponent.normal (String.mk s)

/-- Components of a Unix-style path string (model of
`Utf8UnixPath::components`): empty segments are skipped, `.` is kept only as a
leading component of a relative path, `..` is kept everywhere. -/
def parseComponents (s : String) : List PakComponent :=
  let segs := (splitOnChar '/' s.data).filter (fun p => p ≠ [])
  if s.data.head? = some '/' then
    PakComponent.rootDir :: (segs.filter (fun p => p ≠ ['.'])).map classifySeg
  else
    match segs with
    | [] => []
    | p :: rest =>
      (if p = ['.'] then [PakComponent.curDir] else [classifySeg p]) ++
        (rest.filter (fun p => p ≠ ['.'])).map classifySeg

/-- Model of `Utf8UnixPath::join` on rendered paths: an absolute argument
replaces the base, otherwise the argument is appended with a separator. -/
def joinStr (a b : String) : String :=
  if b.data.head? = some '/' then b
  else if a = "" then b
  else if a.data.getLast? = some '/' then a ++ b
  else a ++ "/" ++ b

/-- Appends one more rendered component to a rendered path. -/
def pathJoin1 (base : String) (c : String) : String :=
  if base.data.getLast? = some '/' then base ++ c else base ++ "/" ++ c

/-- Rendering of one component inside a joined tail. -/
def compStr : PakComponent → String
  | PakComponent.rootDir => "/"
  | PakComponent.curDir => "."
  | PakComponent.parentDir => ".."
  | PakComponent.normal s => s

/-- `base.join(components.as_path())`: append every remaining component. -/
def joinComps (base : String) (cs : List PakComponent) : String :=
  cs.foldl (fun acc c => pathJoin1 acc (compStr c)) base

/-- The `Engine/Plugins` scan loop of `pak_path_to_game_path`: walk forward
until a literal `Content` component, remembering the last name seen; yield that
plugin name and the remaining components. -/
def scanPluginContent : Option String → List PakComponent → Option (String × List PakComponent)
  | _, [] => none
  | last, PakComponent.normal n :: rest =>
    if n = "Content" then last.map (fun p => (p, rest))
    else scanPluginContent (some n) rest
  | _, _ :: _ => none

/-- `mod_lint.rs::pak_path_to_game_path` on the component list of the pak path
(`None` models the `anyhow` "failed to normalize" error). -/
def pak_path_to_game_path (cs : List PakComponent) : Option String :=
  match cs with
  | PakComponent.normal c0 :: rest =>
    if c0 = "Engine" then
      match rest with
      | PakComponent.normal c1 :: rest2 =>
        if c1 = "Content" then some (joinComps "/Engine" rest2)
        else if c1 = "Plugins" then
          (scanPluginContent none rest2).map (fun pr => joinComps (pathJoin1 "/" pr.1) pr.2)
        else none
      | _ => none
    else
      match rest with
      | PakComponent.normal c1 :: rest2 =>
        if c1 = "Content" then some (joinComps "/Game" rest2)
        else none
      | _ => none
  | _ => none

/-- Modelled from the spec: the forward scan of shape (b) of section 4.2 —
look for a `Content` component, remembering the name immediately before it. -/
def specPluginScan : Option String → List PakComponent → Option String
  | _, [] => none
  | last, PakComponent.normal n :: rest =>
    if n = "Content" then last else specPluginScan (some n) rest
  | _, _ :: _ => none

/-- Modelled from the spec: shape acceptance of the path normalizer of
section 4.2 — a path normalizes exactly when it has shape
`Engine/Content/...`, or `Engine/Plugins/.../Content/...` with a named
component immediately before the first `Content` found scanning forward, or
`<project>/Content/...`; every other shape fails. -/
def specShapeB : List PakComponent → Bool
  | PakComponent.normal c0 :: PakComponent.normal c1 :: rest =>
    if c0 = "Engine" then
      if c1 = "Content" then true
      else if c1 = "Plugins" then (specPluginScan none rest).isSome
      else false
    else c1 = "Content"
  | _ => false

/-! ### File-name helpers (model of `Utf8UnixPath::extension`/`with_extension`) -/

/-- Extension of one file-name segment: the part after the last `.`; a name
with no `.`, or whose only `.` is leading (such as `.gitignore`), has none. -/
def extensionChars (name : List Char) : Option (List Char) :=
  match splitOnChar '.' name with
  | [] => none
  | [_] => none
  | p :: rest => if p = [] ∧ rest.length = 1 then none else (p :: rest).getLast?

/-- Drops the extension (with its dot) from a file-name segment, if any. -/
def dropExt (name : List Char) : List Char :=
  match extensionChars name with
  | none => name
  | some e => name.take (name.length - e.length - 1)

/-- `path.with_extension(e)`: replace (or add) the extension of the final
segment of a rendered path. -/
def withExtension (p e : String) : String :=
  let segs := splitOnChar '/' p.data
  String.mk (joinWithChar '/' (segs.dropLast ++ [dropExt (segs.getLastD []) ++ '.' :: e.data]))

/-- `path.file_name()`: the last non-empty segment of a rendered path, when it
is a plain name (model of `Utf8UnixPath::file_name`). -/
def fileNameOf (p : String) : Option (List Char) :=
  match ((splitOnChar '/' p.data).filter (fun s => s ≠ [])).getLast? with
  | none => none
  | some s => if s = ['.'] ∨ s = ['.', '.'] then none else some s

/-- `path.extension()` on a rendered path. -/
def extensionOf (p : String) : Option String :=
  (fileNameOf p).bind (fun n => (extensionChars n).map (fun e => String.mk e))

/-! ### Asset metadata model

The external metadata provider (`unreal_asset`) exposes an export table and
an import table; a `PackageIndex` is an integer: `i + 1` refers to export `i`,
`-(i + 1)` refers to import `i`, and `0` is null. -/

structure UExport where
  objectName : String
  outerIndex : Int
  classIndex : Int
  superIndex : Int
deriving DecidableEq, Repr

structure UImport where
  objectName : String
  outerIndex : Int
deriving DecidableEq, Repr

structure UAsset where
  exports : List UExport
  imports : List UImport
deriving DecidableEq, Repr

/-- `asset.get_import(idx)`: valid only for an in-range import reference. -/
def get_import (a : UAsset) (idx : Int) : Option UImport :=
  if idx < 0 then a.imports.get? (-idx - 1).toNat else none

/-- `mod_lint.rs::get_root_export`: the first export with null outer index,
returned together with its `PackageIndex` (the `unwrap`ped `get_export` of the
Rust code always succeeds on this index, so the export is carried along). -/
def get_root_export (a : UAsset) : Except String (Int × UExport) :=
  match a.exports.enum.find? (fun p => p.2.outerIndex = 0) with
  | some p => Except.ok ((p.1 : Int) + 1, p.2)
  | none => Except.error "no root export"

/-- `mod_lint.rs::get_type`: class name of the root export's class import. -/
def get_type (a : UAsset) : Except String String := do
  let r ← get_root_export a
  match get_import a r.2.classIndex with
  | some imp => Except.ok imp.objectName
  | none => Except.error "missing class import"

/-- `mod_lint.rs::get_full_path`: `<game path>.<root export name>`. -/
def get_full_path (path : String) (a : UAsset) : Except String String := do
  let r ← get_root_export a
  Except.ok (path ++ "." ++ r.2.objectName)

/-- The `while import_index.is_import()` walk of `get_parent_path`, collecting
outer-to-inner import names. The fuel models the unbounded Rust loop: a
non-repeating outer chain visits each import at most once, so
`imports.length + 1` fuel is never exhausted on such chains (the Rust loop
would diverge on a cyclic chain). -/
def walkImports (a : UAsset) : Nat → Int → List String → Except String (List String)
  | 0, idx, acc =>
    if idx < 0 then Except.error "import walk exceeded import count" else Except.ok acc
  | Nat.succ fuel, idx, acc =>
    if idx < 0 then
      match get_import a idx with
      | none => Except.error "missing import"
      | some imp => walkImports a fuel imp.outerIndex (imp.objectName :: acc)
    else Except.ok acc

/-- `mod_lint.rs::get_parent_path`: `None` for a null super reference,
otherwise the dot-joined qualified label of the superclass reference. -/
def get_parent_path (a : UAsset) : Except String (Option String) := do
  let r ← get_root_export a
  if r.2.superIndex = 0 then
    Except.ok none
  else do
    let comps ← walkImports a (a.imports.length + 1) r.2.superIndex []
    Except.ok (some (String.intercalate "." comps))

/-! ### The per-stem main loop of `mod_lint.rs::main` -/

/-- Split-pair test of the main loop: `(umap || uasset) != uexp`. -/
def isSplitB (e : List String) : Bool :=
  (e.contains "umap" || e.contains "uasset") != e.contains "uexp"

/-- Complete-pair test of the main loop: `(umap || uasset) && uexp`. -/
def isCompleteB (e : List String) : Bool :=
  (e.contains "umap" || e.contains "uasset") && e.contains "uexp"

/-- The container member read for a complete pair: `.uasset` if present,
else `.umap`. -/
def chooseName (f : String) (e : List String) : String :=
  if e.contains "uasset" then f ++ ".uasset" else f ++ ".umap"

/-- The three per-run accumulators of the main loop. -/
structure RunState where
  split_pairs : List String
  hierarchy : List (String × List String)
  asset_types : List (String × Except String String)
deriving Repr

/-- The empty accumulators at the start of a run. -/
def initState : RunState := ⟨[], [], []⟩

/-- `pak_path_to_game_path` applied to `sanitized.join(f)`, with the
`with_context` error of the Rust code. -/
def normalizePath (s f : String) : Except String String :=
  match pak_path_to_game_path (parseComponents (joinStr s f)) with
  | some p => Except.ok p
  | none => Except.error ("failed to normalize " ++ joinStr s f)

/-- One iteration of `for (f, ext) in extensions` in `mod_lint.rs::main`.
`g` is the collaborator oracle combining `pak.get` and `Asset::new`: it maps a
member name to the parsed asset or to the error that `?` would propagate. -/
def stepStem (g : String → Except String UAsset) (s : String) (st : RunState)
    (f : String) (e : List String) : Except String RunState :=
  if isSplitB e then
    Except.ok { st with
      split_pairs := e.foldl (fun sp x => setInsert (withExtension (joinStr s f) x) sp)
        st.split_pairs }
  else if isCompleteB e then do
    let a ← g (chooseName f e)
    let path ← normalizePath s f
    let par ← get_parent_path a
    let st1 ←
      match par with
      | some p => do
        let full ← get_full_path path a
        Except.ok { st with hierarchy := edgeInsert p full st.hierarchy }
      | none => Except.ok st
    let full ← get_full_path path a
    Except.ok { st1 with asset_types := mapInsert full (get_type a) st1.asset_types }
  else Except.ok st

/-- The whole per-stem loop: any `?`-propagated failure aborts the remaining
stems, exactly as in `main`. -/
def runStems (g : String → Except String UAsset) (s : String) :
    List (String × List String) → RunState → Except String RunState
  | [], st => Except.ok st
  | (f, e) :: rest, st =>
    match stepStem g s st f e with
    | Except.ok st' => runStems g s rest st'
    | Except.error msg => Except.error msg

/-! ### Extraneous-file collection (`mod_lint.rs::main`, extension loop) -/

/-- The fixed allow-list of valid content extensions. -/
def valid_extensions : List String :=
  ["uasset", "uexp", "umap", "ubulk", "ufont", "ini", "locres"]

/-- An entry is extraneous when its extension is missing or disallowed. -/
def isExtraneousEntry (f : String) : Bool :=
  match extensionOf f with
  | some e => !valid_extensions.contains e
  | none => true

/-- The raw `extraneous_files` set accumulated over the container listing. -/
def extraneousRaw (files : List String) : List String :=
  files.foldl (fun acc f => if isExtraneousEntry f then setInsert f acc else acc) []

/-- The reported extraneous set: raw names joined under the sanitized mount
point, with the one literal exemption filtered out. -/
def extraneousFiles (s : String) (files : List String) : List String :=
  (extraneousRaw files).foldl
    (fun acc f =>
      if joinStr s f = "FSD/AssetRegistry.bin" then acc else setInsert (joinStr s f) acc) []

/-! ### Verification classifier (`mod_lint.rs`, `AutoVerify`/`AssetType`) -/

inductive AutoVerify where
  | Pass
  | Fail
  | Unknown
deriving DecidableEq, Repr

/-- Position of the variant in the Rust declaration (`derive(Ord)` order). -/
def AutoVerify.rank : AutoVerify → Nat
  | AutoVerify.Pass => 0
  | AutoVerify.Fail => 1
  | AutoVerify.Unknown => 2

inductive AssetType where
  | Known (s : String)
  | Unknown (s : String)
deriving DecidableEq, Repr

/-- Position of the variant in the Rust declaration (`derive(Ord)` order). -/
def AssetType.rank : AssetType → Nat
  | AssetType.Known _ => 0
  | AssetType.Unknown _ => 1

/-- The class-or-error text carried by the variant. -/
def AssetType.text : AssetType → String
  | AssetType.Known s => s
  | AssetType.Unknown s => s

/-- The fixed allow-list `auto_verified` of `mod_lint.rs::main`. -/
def auto_verified : List String :=
  ["SoundWave", "SoundCue", "SoundClass", "SoundMix", "MaterialInstanceConstant", "Material",
   "SkeletalMesh", "StaticMesh", "Texture2D", "AnimSequence", "Skeleton", "StringTable"]

/-- One row of the verification table: `(auto_verify, msg, path)`. -/
abbrev Row := AutoVerify × AssetType × String

/-- The row built from one `asset_types` entry in `mod_lint.rs::main`. -/
def rowOf (p : String × Except String String) : Row :=
  match p.2 with
  | Except.ok t =>
    (if auto_verified.contains t then AutoVerify.Pass else AutoVerify.Fail, AssetType.Known t, p.1)
  | Except.error e => (AutoVerify.Unknown, AssetType.Unknown e, p.1)

/-- All rows, in `asset_types` iteration order. -/
def rowsOf (m : List (String × Except String String)) : List Row := m.map rowOf

/-- The derived `Ord` on `(AutoVerify, AssetType, String)` tuples as a `≤`
relation: variant rank, then variant content, with the path last. -/
def rowLe (r1 r2 : Row) : Prop :=
  toLex (r1.1.rank, toLex (r1.2.1.rank, toLex (r1.2.1.text, r1.2.2))) ≤
  toLex (r2.1.rank, toLex (r2.2.1.rank, toLex (r2.2.1.text, r2.2.2)))

instance : DecidableRel rowLe := fun r1 r2 => by unfold rowLe; infer_instance

instance : IsTotal Row rowLe := ⟨fun _ _ => le_total _ _⟩

instance : IsTrans Row rowLe := ⟨fun _ _ _ => le_trans⟩

/-- `auto_verified_results.sort()`: a stable sort by the derived tuple order.
Insertion sort is stable, and a stable sort by a total preorder is unique, so
this is extensionally the Rust `sort`. -/
def sortRows (m : List (String × Except String String)) : List Row :=
  List.insertionSort rowLe (rowsOf m)

/-- Modelled from the spec: the claimed report order — tier with
`Pass < Fail < Unknown`, then class-or-error text, then asset path. -/
def claimLe (r1 r2 : Row) : Prop :=
  toLex (r1.1.rank, toLex (r1.2.1.text, r1.2.2)) ≤
  toLex (r2.1.rank, toLex (r2.2.1.text, r2.2.2))

/-! ### Hierarchy forest and tree renderer -/

/-- All children appearing in any edge set (`edge_list.values().flatten()`). -/
def childrenOf (m : List (String × List String)) : List String :=
  m.foldl (fun acc p => acc ++ p.2) []

/-- `mod_lint.rs::find_roots`: parents that are never children. The `order`
parameter is the iteration order of the `HashSet` of parents, which Rust does
not fix; callers constrain it to a permutation of the keys. -/
def find_roots (order : List String) (m : List (String × List String)) : List String :=
  order.filter (fun p => !(childrenOf m).contains p)

inductive Node where
  | mk (id : String) (children : List Node)
deriving Repr

/-- The label of a node. -/
def Node.id : Node → String
  | Node.mk i _ => i

/-- The ordered children of a node. -/
def Node.children : Node → List Node
  | Node.mk _ c => c

/-- `mod_lint.rs::build_node_recursively`. The fuel bounds the recursion
depth: on an acyclic edge map a parent chain visits distinct keys, so
`m.length + 1` fuel reproduces the unbounded Rust recursion (which would
diverge on a cycle reachable from a root). -/
def build_node_recursively (m : List (String × List String)) : Nat → String → Node
  | 0, i => Node.mk i []
  | Nat.succ fuel, i =>
    Node.mk i (((lookupM i m).getD []).map (build_node_recursively m fuel))

/-- `mod_lint.rs::build_trees`. -/
def build_trees (m : List (String × List String)) (order : List String) : List Node :=
  (find_roots order m).map (build_node_recursively m (m.length + 1))

inductive Edge where
  | none
  | straight
  | corner
  | t
deriving DecidableEq, Repr

/-- `Display for Edge`. -/
def edgeStr : Edge → String
  | Edge.none => "    "
  | Edge.straight => "│   "
  | Edge.corner => "└── "
  | Edge.t => "├── "

/-- The `stack.last_mut()` update performed before descending into children:
a corner becomes blank, a tee becomes a continuation. -/
def modifyLast : List Edge → List Edge
  | [] => []
  | [Edge.corner] => [Edge.none]
  | [Edge.t] => [Edge.straight]
  | [e] => [e]
  | e :: rest => e :: modifyLast rest

mutual

/-- `Node::print_node` as a pure line producer: the node's own line followed
by the lines of its children. -/
def printNode (pre : String) (stack : List Edge) : Node → List String
  | Node.mk i children =>
    (pre ++ String.join (stack.map edgeStr) ++ i) :: printChildren pre (modifyLast stack) children

/-- The `split_last` child traversal: non-last children get a tee connector,
the last child a corner connector. -/
def printChildren (pre : String) (stack : List Edge) : List Node → List String
  | [] => []
  | [n] => printNode pre (stack ++ [Edge.corner]) n
  | n :: rest => printNode pre (stack ++ [Edge.t]) n ++ printChildren pre stack rest

end

/-- `Node::print`, which starts with an empty edge stack. -/
def Node.print (n : Node) (pre : String) : List String := printNode pre [] n

/-! ### Ownership indexer (`modio_audit.rs`) -/

/-- `asset_owners.entry(file).or_insert(vec![]).push(mod_id)`: append the id
to the first entry with this key, or add a fresh entry at the end. -/
def pushOwner (f : String) (i : Nat) : List (String × List Nat) → List (String × List Nat)
  | [] => [(f, [i])]
  | (k, v) :: rest => if k = f then (k, v ++ [i]) :: rest else (k, v) :: pushOwner f i rest

/-- The `asset_owners` map accumulated over all mod directories, keyed by
normalized path, in first-insertion order (the canonical contents of the
`HashMap`; iteration order is quantified separately). -/
def buildOwners (runs : List (Nat × List String)) : List (String × List Nat) :=
  runs.foldl (fun acc r => r.2.foldl (fun m file => pushOwner file r.1 m) acc) []

/-- `sorted.sort_by_key(|a| a.1.len())`: compare by owner-record count. -/
def ownerLe (a b : String × List Nat) : Prop := a.2.length ≤ b.2.length

instance : DecidableRel ownerLe := fun a b => by unfold ownerLe; infer_instance

instance : IsTotal (String × List Nat) ownerLe := ⟨fun _ _ => Nat.le_total _ _⟩

instance : IsTrans (String × List Nat) ownerLe := ⟨fun _ _ _ => Nat.le_trans⟩

/-- The report row order of `modio_audit.rs::main`: a stable sort of the
iteration order by ascending record count. -/
def sortOwners (base : List (String × List Nat)) : List (String × List Nat) :=
  List.insertionSort ownerLe base

/-! ### Spec-side predicates and concrete fixtures -/

/-- Modelled from the spec: a complete pair has EXACTLY one of the
primary-data and map extensions together with the auxiliary export. -/
def specExactPair (e : List String) : Bool :=
  (e.contains "uasset" != e.contains "umap") && e.contains "uexp"

/-- Fold of `mapInsert` over key-value pairs (used to characterize the final
`asset_types` map of a run). -/
def insertsOf (kvs : List (String × α)) (base : List (String × α)) : List (String × α) :=
  kvs.foldl (fun b p => mapInsert p.1 p.2 b) base

/-- A hierarchy edge `par → child` is recorded: some entry for `par` has
`child` among its children. -/
def memEdge (par child : String) (h : List (String × List String)) : Prop :=
  ∃ v, (par, v) ∈ h ∧ child ∈ v

/-- Container `i` owns path `pa` in an ownership map. -/
def Owns (m : List (String × List Nat)) (pa : String) (i : Nat) : Prop :=
  ∃ v, (pa, v) ∈ m ∧ i ∈ v

/-- The rendered line blocks of all trees of a run, one block per root, in
root order (`tree.print("\t")` for each tree of `build_trees`). -/
def printedTrees (m : List (String × List String)) (order : List String) : List (List String) :=
  (build_trees m order).map (fun t => t.print "\t")

/-- A parsed asset whose root export has no resolvable class import: its
`get_type` fails with "missing class import" while parsing succeeded. -/
def assetBadClass : UAsset := ⟨[⟨"RootA", 0, 0, 0⟩], []⟩

/-- A parsed asset of class `Texture2D` with no superclass. -/
def assetGood : UAsset := ⟨[⟨"RootB", 0, -1, 0⟩], [⟨"Texture2D", 0⟩]⟩

/-- A parsed asset whose superclass is an engine import (`/Script/Engine.Actor`),
outside any run's own asset set. -/
def assetExtParent : UAsset := ⟨[⟨"MyActor", 0, -2, -2⟩], [⟨"/Script/Engine", 0⟩, ⟨"Actor", -1⟩]⟩

/-- Oracle for the C1 counterexample: asset `A` fails to parse, siblings parse. -/
def gParseFail : String → Except String UAsset :=
  fun n => if n = "FSD/Content/A.uasset" then Except.error "failed to parse asset"
  else Except.ok assetGood

/-- Oracle for the C1 witness: asset `A` parses but its class import is
missing, siblings are fine. -/
def gBadClass : String → Except String UAsset :=
  fun n => if n = "FSD/Content/A.uasset" then Except.ok assetBadClass else Except.ok assetGood

/-- Two sibling complete pairs under `FSD/Content`. -/
def extTwoStems : List (String × List String) :=
  [("FSD/Content/A", ["uasset", "uexp"]), ("FSD/Content/B", ["uasset", "uexp"])]

theorem mem_setInsert (y x : String) (l : List String) :
    y ∈ setInsert x l ↔ y = x ∨ y ∈ l := by
  induction l with
  | nil => simp [setInsert]
  | cons z zs ih =>
    simp only [setInsert]
    split
    · simp [List.mem_cons]
    · split
      · next h2 =>
        subst h2
        simp only [List.mem_cons]
        tauto
      · simp only [List.mem_cons, ih]
        tauto

theorem mem_setInsert_self (x : String) (l : List String) : x ∈ setInsert x l :=
  (mem_setInsert x x l).2 (Or.inl rfl)

theorem mem_setInsert_of_mem (x : String) {y : String} {l : List String} (h : y ∈ l) :
    y ∈ setInsert x l :=
  (mem_setInsert y x l).2 (Or.inr h)

theorem lookupM_mapInsert_self (k : String) (v : α) (m : List (String × α)) :
    lookupM k (mapInsert k v m) = some v := by
  induction m with
  | nil => simp [mapInsert, lookupM]
  | cons p rest ih =>
    obtain ⟨k', v'⟩ := p
    by_cases h1 : strLt k k' = true
    · simp [mapInsert, h1, lookupM]
    · by_cases h2 : k = k'
      · subst h2; simp [mapInsert, h1, lookupM]
      · simp [mapInsert, h1, h2, lookupM, ih]

theorem lookupM_mapInsert_ne (k k' : String) (hne : k ≠ k') (v : α) (m : List (String × α)) :
    lookupM k (mapInsert k' v m) = lookupM k m := by
  induction m with
  | nil => simp [mapInsert, lookupM, hne]
  | cons p rest ih =>
    obtain ⟨k'', v''⟩ := p
    by_cases h1 : strLt k' k'' = true
    · simp [mapInsert, h1, lookupM, hne]
    · by_cases h2 : k' = k''
      · subst h2; simp [mapInsert, h1, lookupM, hne]
      · simp [mapInsert, h1, h2, lookupM, ih]

theorem scanPluginContent_isSome (rest : List PakComponent) :
    ∀ last, (scanPluginContent last rest).isSome = (specPluginScan last rest).isSome := by
  induction rest with
  | nil => intro last; rfl
  | cons c rest ih =>
    intro last
    match c with
    | PakComponent.rootDir => rfl
    | PakComponent.curDir => rfl
    | PakComponent.parentDir => rfl
    | PakComponent.normal n =>
      by_cases h : n = "Content"
      · subst h
        cases last <;> simp [scanPluginContent, specPluginScan]
      · simp [scanPluginContent, specPluginScan, h, ih]

theorem scanPluginContent_names (names : List String) (nm : String) (post : List PakComponent)
    (hn : ¬ "Content" ∈ names) (hl : names.getLast? = some nm) :
    ∀ last, scanPluginContent last
      (names.map PakComponent.normal ++ PakComponent.normal "Content" :: post) =
      some (nm, post) := by
  induction names with
  | nil => simp at hl
  | cons n rest ih =>
    intro last
    have hn1 : n ≠ "Content" := fun h => hn (by simp [h])
    have hn2 : ¬ "Content" ∈ rest := fun h => hn (by simp [h])
    cases rest with
    | nil =>
      simp only [List.getLast?_singleton, Option.some_inj] at hl
      subst hl
      simp [scanPluginContent, hn1]
    | cons r rs =>
      have hl' : (r :: rs).getLast? = some nm := by
        rwa [List.getLast?_cons_cons] at hl
      simp only [List.map_cons, List.cons_append, scanPluginContent, hn1, if_neg hn1]
      exact ih hn2 hl' (some n)

theorem pak_path_isSome_eq_specShape (cs : List PakComponent) :
    (pak_path_to_game_path cs).isSome = specShapeB cs := by
  match cs with
  | [] => rfl
  | PakComponent.rootDir :: _ => rfl
  | PakComponent.curDir :: _ => rfl
  | PakComponent.parentDir :: _ => rfl
  | [PakComponent.normal c0] =>
    by_cases h : c0 = "Engine" <;> simp [pak_path_to_game_path, specShapeB, h]
  | PakComponent.normal c0 :: PakComponent.rootDir :: rest =>
    by_cases h : c0 = "Engine" <;> simp [pak_path_to_game_path, specShapeB, h]
  | PakComponent.normal c0 :: PakComponent.curDir :: rest =>
    by_cases h : c0 = "Engine" <;> simp [pak_path_to_game_path, specShapeB, h]
  | PakComponent.normal c0 :: PakComponent.parentDir :: rest =>
    by_cases h : c0 = "Engine" <;> simp [pak_path_to_game_path, specShapeB, h]
  | PakComponent.normal c0 :: PakComponent.normal c1 :: rest =>
    by_cases h0 : c0 = "Engine"
    · by_cases h1 : c1 = "Content"
      · simp [pak_path_to_game_path, specShapeB, h0, h1]
      · by_cases h2 : c1 = "Plugins"
        · simp [pak_path_to_game_path, specShapeB, h0, h1, h2,
            scanPluginContent_isSome rest none]
        · simp [pak_path_to_game_path, specShapeB, h0, h1, h2]
    · by_cases h1 : c1 = "Content" <;>
        simp [pak_path_to_game_path, specShapeB, h0, h1]

/-- C7: the path normalizer maps `ModName/Content/Foo/Bar` to `/Game/Foo/Bar`,
`Engine/Content/Foo` to `/Engine/Foo`, `Engine/Plugins/MyPlugin/Content/Foo`
to `/MyPlugin/Foo` (the plugin name being the named component immediately
before the first `Content` found scanning forward), fails on
`Engine/Plugins/MyPlugin/NotContent/Foo`, and succeeds exactly on the shapes
listed by the spec. -/
theorem c7_path_normalizer :
    pak_path_to_game_path (parseComponents "ModName/Content/Foo/Bar") = some "/Game/Foo/Bar" ∧
    pak_path_to_game_path (parseComponents "Engine/Content/Foo") = some "/Engine/Foo" ∧
    pak_path_to_game_path (parseComponents "Engine/Plugins/MyPlugin/Content/Foo") =
      some "/MyPlugin/Foo" ∧
    pak_path_to_game_path (parseComponents "Engine/Plugins/MyPlugin/NotContent/Foo") = none ∧
    (∀ (names : List String) (nm : String) (post : List PakComponent),
      ¬ "Content" ∈ names → names.getLast? = some nm →
      pak_path_to_game_path (PakComponent.normal "Engine" :: PakComponent.normal "Plugins" ::
        (names.map PakComponent.normal ++ PakComponent.normal "Content" :: post)) =
        some (joinComps ("/" ++ nm) post)) ∧
    (∀ cs, (pak_path_to_game_path cs).isSome = specShapeB cs) := by
  refine ⟨by decide, by decide, by decide, by decide, ?_, pak_path_isSome_eq_specShape⟩
  intro names nm post hn hl
  have hscan := scanPluginContent_names names nm post hn hl none
  have hj : pathJoin1 "/" nm = "/" ++ nm := by
    simp [pathJoin1]
  simp [pak_path_to_game_path, hscan, hj]

/-- Concrete instantiation of the plugin-name clause of `c7_path_normalizer`. -/
theorem c7_path_normalizer_witness :
    (¬ "Content" ∈ ["MyPlugin"]) ∧ (["MyPlugin"].getLast? = some "MyPlugin") ∧
    pak_path_to_game_path (PakComponent.normal "Engine" :: PakComponent.normal "Plugins" ::
      ((["MyPlugin"].map PakComponent.normal) ++
        PakComponent.normal "Content" :: [PakComponent.normal "Foo"])) =
      some (joinComps ("/" ++ "MyPlugin") [PakComponent.normal "Foo"]) :=
  ⟨by decide, by decide,
    c7_path_normalizer.2.2.2.2.1 ["MyPlugin"] "MyPlugin" [PakComponent.normal "Foo"]
      (by decide) (by decide)⟩

theorem mem_foldl_setInsert_of_mem (F : String → String) (l : List String) :
    ∀ sp0 y, y ∈ sp0 → y ∈ l.foldl (fun sp x => setInsert (F x) sp) sp0 := by
  induction l with
  | nil => intro sp0 y h; exact h
  | cons a rest ih =>
    intro sp0 y h
    exact ih _ y (mem_setInsert_of_mem (F a) h)

theorem mem_foldl_setInsert (F : String → String) (l : List String) :
    ∀ sp0 x, x ∈ l → F x ∈ l.foldl (fun sp x => setInsert (F x) sp) sp0 := by
  induction l with
  | nil => intro sp0 x h; cases h
  | cons a rest ih =>
    intro sp0 x h
    rcases List.mem_cons.1 h with rfl | h
    · exact mem_foldl_setInsert_of_mem F rest _ _ (mem_setInsert_self (F x) sp0)
    · exact ih _ x h

theorem exceptBind_ok (a : α) (f : α → Except ε β) : (Except.ok a >>= f) = f a := rfl

theorem exceptBind_error (m : ε) (f : α → Except ε β) :
    ((Except.error m : Except ε α) >>= f) = Except.error m := rfl

theorem isSplitB_false_of_complete (e : List String) (hc : isCompleteB e = true) :
    isSplitB e = false := by
  unfold isCompleteB at hc
  rw [Bool.and_eq_true] at hc
  unfold isSplitB
  rw [hc.1, hc.2]
  rfl

theorem stepStem_split (g : String → Except String UAsset) (s : String) (st : RunState)
    (f : String) (e : List String) (hs : isSplitB e = true) :
    stepStem g s st f e = Except.ok { st with
      split_pairs := e.foldl (fun sp x => setInsert (withExtension (joinStr s f) x) sp)
        st.split_pairs } := by
  simp [stepStem, hs]

theorem stepStem_other (g : String → Except String UAsset) (s : String) (st : RunState)
    (f : String) (e : List String) (hs : isSplitB e = false) (hc : isCompleteB e = false) :
    stepStem g s st f e = Except.ok st := by
  simp [stepStem, hs, hc]

theorem stepStem_complete_inv (g : String → Except String UAsset) (s : String) (st : RunState)
    (f : String) (e : List String) (st' : RunState)
    (hc : isCompleteB e = true)
    (hstep : stepStem g s st f e = Except.ok st') :
    ∃ a p q full,
      g (chooseName f e) = Except.ok a ∧
      normalizePath s f = Except.ok p ∧
      get_parent_path a = Except.ok q ∧
      get_full_path p a = Except.ok full ∧
      st' = { split_pairs := st.split_pairs,
              hierarchy := (match q with
                | some par => edgeInsert par full st.hierarchy
                | none => st.hierarchy),
              asset_types := mapInsert full (get_type a) st.asset_types } := by
  have hs := isSplitB_false_of_complete e hc
  simp only [stepStem, hs, hc, Bool.false_eq_true, if_false, if_true] at hstep
  cases hga : g (chooseName f e) with
  | error m => rw [hga, exceptBind_error] at hstep; cases hstep
  | ok a =>
    rw [hga, exceptBind_ok] at hstep
    cases hp : normalizePath s f with
    | error m => rw [hp, exceptBind_error] at hstep; cases hstep
    | ok p =>
      rw [hp, exceptBind_ok] at hstep
      cases hq : get_parent_path a with
      | error m => rw [hq, exceptBind_error] at hstep; cases hstep
      | ok q =>
        rw [hq, exceptBind_ok] at hstep
        cases hr : get_root_export a with
        | error m =>
          exfalso
          unfold get_parent_path at hq
          rw [hr, exceptBind_error] at hq
          cases hq
        | ok r =>
          have hfull : get_full_path p a = Except.ok (p ++ "." ++ r.2.objectName) := by
            unfold get_full_path
            rw [hr]
            rfl
          refine ⟨a, p, q, p ++ "." ++ r.2.objectName, ?_, ?_, ?_, hfull, ?_⟩
          case _ => rfl
          case _ => rfl
          case _ => exact hq
          cases q with
          | none =>
            dsimp only at hstep
            rw [hfull] at hstep
            simp only [exceptBind_ok] at hstep
            cases hstep
            rfl
          | some par =>
            dsimp only at hstep
            rw [hfull] at hstep
            simp only [exceptBind_ok] at hstep
            cases hstep
            rfl

theorem stepStem_complete (g : String → Except String UAsset) (s : String) (st : RunState)
    (f : String) (e : List String) (a : UAsset) (p : String) (q : Option String)
    (r : Int × UExport)
    (hc : isCompleteB e = true)
    (hg : g (chooseName f e) = Except.ok a)
    (hp : normalizePath s f = Except.ok p)
    (hq : get_parent_path a = Except.ok q)
    (hr : get_root_export a = Except.ok r) :
    stepStem g s st f e = Except.ok
      { split_pairs := st.split_pairs,
        hierarchy := (match q with
          | some par => edgeInsert par (p ++ "." ++ r.2.objectName) st.hierarchy
          | none => st.hierarchy),
        asset_types := mapInsert (p ++ "." ++ r.2.objectName) (get_type a) st.asset_types } := by
  have hs := isSplitB_false_of_complete e hc
  have hfull : get_full_path p a = Except.ok (p ++ "." ++ r.2.objectName) := by
    unfold get_full_path
    rw [hr]
    rfl
  simp only [stepStem, hs, hc, Bool.false_eq_true, if_false, if_true]
  rw [hg, exceptBind_ok, hp, exceptBind_ok]
  simp only [hq, exceptBind_ok]
  cases q with
  | none =>
    dsimp only
    rw [hfull]
    simp only [exceptBind_ok]
  | some par =>
    dsimp only
    rw [hfull]
    simp only [exceptBind_ok]

theorem stepStem_parse_error (g : String → Except String UAsset) (s : String) (st : RunState)
    (f : String) (e : List String) (msg : String)
    (hc : isCompleteB e = true)
    (hg : g (chooseName f e) = Except.error msg) :
    stepStem g s st f e = Except.error msg := by
  have hs := isSplitB_false_of_complete e hc
  simp only [stepStem, hs, hc, Bool.false_eq_true, if_false, if_true]
  rw [hg, exceptBind_error]

theorem stepStem_norm_error (g : String → Except String UAsset) (s : String) (st : RunState)
    (f : String) (e : List String) (a : UAsset) (msg : String)
    (hc : isCompleteB e = true)
    (hg : g (chooseName f e) = Except.ok a)
    (hp : normalizePath s f = Except.error msg) :
    stepStem g s st f e = Except.error msg := by
  have hs := isSplitB_false_of_complete e hc
  simp only [stepStem, hs, hc, Bool.false_eq_true, if_false, if_true]
  rw [hg, exceptBind_ok, hp, exceptBind_error]

theorem runStems_cons_ok (g : String → Except String UAsset) (s : String) (f : String)
    (e : List String) (rest : List (String × List String)) (st st1 : RunState)
    (h : stepStem g s st f e = Except.ok st1) :
    runStems g s ((f, e) :: rest) st = runStems g s rest st1 := by
  simp [runStems, h]

theorem runStems_cons_error (g : String → Except String UAsset) (s : String) (f : String)
    (e : List String) (rest : List (String × List String)) (st : RunState) (msg : String)
    (h : stepStem g s st f e = Except.error msg) :
    runStems g s ((f, e) :: rest) st = Except.error msg := by
  simp [runStems, h]

/-- C6 counterexample: the stem with extensions `uasset`, `uexp`, `umap` has
BOTH pair halves, so the spec's "exactly one of primary-data and map" test
rejects it, yet the code treats it as a complete pair and extracts metadata
(picking the `.uasset` member), recording a verification row. -/
theorem c6_counterexample :
    isCompleteB ["uasset", "uexp", "umap"] = true ∧
    specExactPair ["uasset", "uexp", "umap"] = false ∧
    stepStem (fun _ => Except.ok assetGood) "" initState "FSD/Content/A"
      ["uasset", "uexp", "umap"] =
      Except.ok ⟨[], [], [("/Game/A.RootB", Except.ok "Texture2D")]⟩ :=
  ⟨by decide, by decide, rfl⟩

/-- C6 amended: a stem is a complete pair eligible for extraction iff its
extension set contains AT LEAST one of the primary-data and map extensions
together with the auxiliary export; a stem with exactly one pair half reports
every extension under the stem as a split-pair anomaly, and a complete pair
contributes no split-pair anomaly. -/
theorem c6_pairing (g : String → Except String UAsset) (s : String) (st : RunState)
    (f : String) (e : List String) :
    (isCompleteB e = true ↔
      ((e.contains "uasset" = true ∨ e.contains "umap" = true) ∧ e.contains "uexp" = true)) ∧
    ((e.contains "uasset" = true ∨ e.contains "umap" = true) → e.contains "uexp" = false →
      isSplitB e = true) ∧
    (e.contains "uexp" = true → e.contains "uasset" = false → e.contains "umap" = false →
      isSplitB e = true) ∧
    (isCompleteB e = true → isSplitB e = false) ∧
    (isSplitB e = true → ∃ st', stepStem g s st f e = Except.ok st' ∧
      st'.asset_types = st.asset_types ∧ st'.hierarchy = st.hierarchy ∧
      ∀ x ∈ e, withExtension (joinStr s f) x ∈ st'.split_pairs) ∧
    (isCompleteB e = true → ∀ st', stepStem g s st f e = Except.ok st' →
      st'.split_pairs = st.split_pairs) := by
  refine ⟨?_, ?_, ?_, isSplitB_false_of_complete e, ?_, ?_⟩
  · unfold isCompleteB
    rw [Bool.and_eq_true, Bool.or_eq_true]
    tauto
  · intro hu hx
    unfold isSplitB
    rw [hx]
    rcases hu with h | h
    · rw [h]
      simp [Bool.or_true]
    · rw [h]
      simp [Bool.true_or]
  · intro hx ha hm
    unfold isSplitB
    rw [hx, ha, hm]
    rfl
  · intro hs
    refine ⟨_, stepStem_split g s st f e hs, rfl, rfl, ?_⟩
    intro x hx
    exact mem_foldl_setInsert (fun y => withExtension (joinStr s f) y) e st.split_pairs x hx
  · intro hc st' hstep
    obtain ⟨a, p, q, full, _, _, _, _, hst⟩ := stepStem_complete_inv g s st f e st' hc hstep
    rw [hst]

/-- Concrete instantiation of the split-pair clauses of `c6_pairing`: the stem
`FSD/Content/S` with only a `.uasset` reports both of its extensions. -/
theorem c6_pairing_witness :
    isSplitB ["uasset", "ubulk"] = true ∧
    (∃ st', stepStem (fun _ => Except.ok assetGood) "" initState "FSD/Content/S"
        ["uasset", "ubulk"] = Except.ok st' ∧
      st'.asset_types = initState.asset_types ∧ st'.hierarchy = initState.hierarchy ∧
      ∀ x ∈ ["uasset", "ubulk"],
        withExtension (joinStr "" "FSD/Content/S") x ∈ st'.split_pairs) :=
  ⟨by decide,
    (c6_pairing (fun _ => Except.ok assetGood) "" initState "FSD/Content/S"
      ["uasset", "ubulk"]).2.2.2.2.1 (by decide)⟩

/-- C4 counterexample: a run whose first complete pair sits under
`NotContent/`, which does not normalize, aborts with the normalization error —
the sibling `FSD/Content/B` is never processed and no report is produced,
contrary to the claimed exclude-and-continue behavior. -/
theorem c4_counterexample :
    runStems (fun _ => Except.ok assetGood) ""
      [("NotContent/A", ["uasset", "uexp"]), ("FSD/Content/B", ["uasset", "uexp"])] initState =
      Except.error "failed to normalize NotContent/A" := rfl

/-- C4 amended: a per-asset normalization failure on an otherwise-parsed
complete pair is propagated with `?` and aborts the whole run at that stem:
the run returns the normalization error and no later stem is processed. -/
theorem c4_normalization_aborts (g : String → Except String UAsset) (s : String)
    (f : String) (e : List String) (rest : List (String × List String)) (st0 : RunState)
    (a : UAsset)
    (hc : isCompleteB e = true)
    (hg : g (chooseName f e) = Except.ok a)
    (hn : pak_path_to_game_path (parseComponents (joinStr s f)) = none) :
    runStems g s ((f, e) :: rest) st0 =
      Except.error ("failed to normalize " ++ joinStr s f) := by
  have hp : normalizePath s f = Except.error ("failed to normalize " ++ joinStr s f) := by
    unfold normalizePath
    rw [hn]
  exact runStems_cons_error g s f e rest st0 _
    (stepStem_norm_error g s st0 f e a _ hc hg hp)

/-- Concrete instantiation of `c4_normalization_aborts`. -/
theorem c4_normalization_aborts_witness :
    isCompleteB ["uasset", "uexp"] = true ∧
    runStems (fun _ => Except.ok assetGood) ""
      [("NotContent/Z", ["uasset", "uexp"]), ("FSD/Content/B", ["uasset", "uexp"])] initState =
      Except.error ("failed to normalize " ++ joinStr "" "NotContent/Z") :=
  ⟨by decide,
    c4_normalization_aborts (fun _ => Except.ok assetGood) "" "NotContent/Z"
      ["uasset", "uexp"] [("FSD/Content/B", ["uasset", "uexp"])] initState assetGood
      (by decide) rfl (by decide)⟩

/-- C1 counterexample: a parse failure for the single asset `FSD/Content/A` is
propagated by `?` and aborts the whole run — the sibling `FSD/Content/B` is
never processed, no verification row (Unknown or otherwise) is produced, and
the failing path is not listed anywhere. -/
theorem c1_counterexample :
    runStems gParseFail "" extTwoStems initState = Except.error "failed to parse asset" := rfl

/-- C2 counterexample: a single-asset run whose root export's superclass is
the external import chain `/Script/Engine.Actor` still inserts the forest edge
`/Script/Engine.Actor → /Game/A.MyActor`, although the parent is not among
this run's asset full paths — contradicting "a superclass pointing outside the
run's asset set contributes no forest edge". -/
theorem c2_counterexample :
    runStems (fun _ => Except.ok assetExtParent) "" [("FSD/Content/A", ["uasset", "uexp"])]
      initState =
      Except.ok ⟨[], [("/Script/Engine.Actor", ["/Game/A.MyActor"])],
        [("/Game/A.MyActor", Except.ok "Actor")]⟩ ∧
    ¬ ("/Script/Engine.Actor" ∈ ["/Game/A.MyActor"]) :=
  ⟨rfl, by decide⟩

theorem memEdge_edgeInsert_self (p c : String) (h : List (String × List String)) :
    memEdge p c (edgeInsert p c h) := by
  induction h with
  | nil => exact ⟨[c], by simp [edgeInsert], by simp⟩
  | cons kv rest ih =>
    obtain ⟨k, v⟩ := kv
    unfold edgeInsert
    split
    · exact ⟨[c], by simp, by simp⟩
    · split
      · next heq =>
        subst heq
        exact ⟨setInsert c v, by simp, mem_setInsert_self c v⟩
      · obtain ⟨w, hw, hcw⟩ := ih
        exact ⟨w, List.mem_cons_of_mem _ hw, hcw⟩

theorem memEdge_edgeInsert_mono (p c q d : String) (h : List (String × List String))
    (hm : memEdge q d h) : memEdge q d (edgeInsert p c h) := by
  induction h with
  | nil =>
    obtain ⟨v, hv, _⟩ := hm
    cases hv
  | cons kv rest ih =>
    obtain ⟨k, v⟩ := kv
    obtain ⟨w, hw, hdw⟩ := hm
    unfold edgeInsert
    split
    · exact ⟨w, List.mem_cons_of_mem _ hw, hdw⟩
    · split
      · next heq =>
        subst heq
        rcases List.mem_cons.1 hw with heq2 | hw2
        · obtain ⟨hq, hv⟩ := Prod.mk.injEq .. ▸ heq2
          subst hq
          subst hv
          exact ⟨setInsert c w, by simp, mem_setInsert_of_mem c hdw⟩
        · exact ⟨w, List.mem_cons_of_mem _ hw2, hdw⟩
      · rcases List.mem_cons.1 hw with heq2 | hw2
        · exact ⟨w, by rw [heq2]; exact List.mem_cons_self _ _, hdw⟩
        · obtain ⟨w2, hw2b, hdw2⟩ := ih ⟨w, hw2, hdw⟩
          exact ⟨w2, List.mem_cons_of_mem _ hw2b, hdw2⟩

theorem stepStem_hierarchy_mono (g : String → Except String UAsset) (s : String)
    (st : RunState) (f : String) (e : List String) (st' : RunState) (q d : String)
    (hstep : stepStem g s st f e = Except.ok st')
    (hm : memEdge q d st.hierarchy) : memEdge q d st'.hierarchy := by
  by_cases hs : isSplitB e = true
  · rw [stepStem_split g s st f e hs] at hstep
    cases hstep
    exact hm
  · have hs' : isSplitB e = false := by
      cases hval : isSplitB e
      · rfl
      · exact absurd hval hs
    by_cases hc : isCompleteB e = true
    · obtain ⟨a, p, qq, full, _, _, _, _, hst⟩ := stepStem_complete_inv g s st f e st' hc hstep
      subst hst
      cases qq with
      | none => exact hm
      | some par => exact memEdge_edgeInsert_mono par full q d st.hierarchy hm
    · have hc' : isCompleteB e = false := by
        cases hval : isCompleteB e
        · rfl
        · exact absurd hval hc
      rw [stepStem_other g s st f e hs' hc'] at hstep
      cases hstep
      exact hm

theorem runStems_hierarchy_mono (g : String → Except String UAsset) (s : String)
    (ext : List (String × List String)) :
    ∀ st st' q d, runStems g s ext st = Except.ok st' →
      memEdge q d st.hierarchy → memEdge q d st'.hierarchy := by
  induction ext with
  | nil =>
    intro st st' q d h hm
    cases h
    exact hm
  | cons fe rest ih =>
    intro st st' q d h hm
    obtain ⟨f, e⟩ := fe
    cases hstep : stepStem g s st f e with
    | error m =>
      rw [runStems_cons_error g s f e rest st m hstep] at h
      cases h
    | ok st1 =>
      rw [runStems_cons_ok g s f e rest st st1 hstep] at h
      exact ih st1 st' q d h (stepStem_hierarchy_mono g s st f e st1 q d hstep hm)

/-- C2 amended: a forest edge `parent → full_path` is inserted for EVERY
complete pair whose root export has a nonzero superclass reference with a
successful import walk: the parent key is the qualified dotted label, whether
or not it names an asset of this run, so an external superclass still
contributes a forest edge (and later shows up as a rendered root). -/
theorem c2_edge_inserted (g : String → Except String UAsset) (s : String)
    (ext : List (String × List String)) (st0 st : RunState) (f : String) (e : List String)
    (a : UAsset) (p par full : String)
    (hrun : runStems g s ext st0 = Except.ok st)
    (hmem : (f, e) ∈ ext)
    (hc : isCompleteB e = true)
    (hg : g (chooseName f e) = Except.ok a)
    (hp : normalizePath s f = Except.ok p)
    (hq : get_parent_path a = Except.ok (some par))
    (hf : get_full_path p a = Except.ok full) :
    memEdge par full st.hierarchy := by
  induction ext generalizing st0 with
  | nil => cases hmem
  | cons fe rest ih =>
    obtain ⟨f0, e0⟩ := fe
    cases hstep : stepStem g s st0 f0 e0 with
    | error m =>
      rw [runStems_cons_error g s f0 e0 rest st0 m hstep] at hrun
      cases hrun
    | ok st1 =>
      rw [runStems_cons_ok g s f0 e0 rest st0 st1 hstep] at hrun
      rcases List.mem_cons.1 hmem with heq | hmem2
      · obtain ⟨hf0, he0⟩ := Prod.mk.injEq .. ▸ heq
        subst hf0
        subst he0
        obtain ⟨a2, p2, q2, full2, hg2, hp2, hq2, hf2, hst⟩ :=
          stepStem_complete_inv g s st0 f e st1 hc hstep
        rw [hg] at hg2
        injection hg2 with ha2
        subst ha2
        rw [hp] at hp2
        injection hp2 with hp2e
        subst hp2e
        rw [hq] at hq2
        injection hq2 with hq2e
        subst hq2e
        rw [hf] at hf2
        injection hf2 with hf2e
        subst hf2e
        subst hst
        exact runStems_hierarchy_mono g s rest _ st par full hrun
          (memEdge_edgeInsert_self par full st0.hierarchy)
      · exact ih st1 hrun hmem2

/-- Concrete instantiation of `c2_edge_inserted` on the external-superclass
asset: the edge keyed by the qualified label is present in the final state. -/
theorem c2_edge_inserted_witness :
    isCompleteB ["uasset", "uexp"] = true ∧
    memEdge "/Script/Engine.Actor" "/Game/A.MyActor"
      (RunState.hierarchy ⟨[], [("/Script/Engine.Actor", ["/Game/A.MyActor"])],
        [("/Game/A.MyActor", Except.ok "Actor")]⟩) :=
  ⟨by decide,
    c2_edge_inserted (fun _ => Except.ok assetExtParent) ""
      [("FSD/Content/A", ["uasset", "uexp"])] initState
      ⟨[], [("/Script/Engine.Actor", ["/Game/A.MyActor"])],
        [("/Game/A.MyActor", Except.ok "Actor")]⟩
      "FSD/Content/A" ["uasset", "uexp"] assetExtParent "/Game/A" "/Script/Engine.Actor"
      "/Game/A.MyActor" rfl (by decide) (by decide) rfl rfl rfl rfl⟩

/-- C3 counterexample: with two roots `A` and `B`, two legitimate hash-set
iteration orders of the same parent set render the two trees in different
sequences, so the printed output is not character-identical across runs. -/
theorem c3_counterexample :
    (["A", "B"].Perm (([("A", ["x"]), ("B", ["y"])]).map Prod.fst)) ∧
    (["B", "A"].Perm (([("A", ["x"]), ("B", ["y"])]).map Prod.fst)) ∧
    printedTrees [("A", ["x"]), ("B", ["y"])] ["A", "B"] ≠
      printedTrees [("A", ["x"]), ("B", ["y"])] ["B", "A"] :=
  ⟨by decide, by decide, by decide⟩

/-- C3 amended: rebuilding and re-rendering on an unchanged edge map yields
the same trees up to the order of the roots: the root list, the tree list and
the rendered line blocks are permutations across any two iteration orders of
the same parent set; each individual tree renders identically. -/
theorem c3_trees_up_to_root_order (m : List (String × List String)) (o1 o2 : List String)
    (h : o1.Perm o2) :
    (find_roots o1 m).Perm (find_roots o2 m) ∧
    (build_trees m o1).Perm (build_trees m o2) ∧
    (printedTrees m o1).Perm (printedTrees m o2) := by
  have h1 : (find_roots o1 m).Perm (find_roots o2 m) := h.filter _
  exact ⟨h1, h1.map _, (h1.map _).map _⟩

/-- Concrete instantiation of `c3_trees_up_to_root_order`. -/
theorem c3_trees_up_to_root_order_witness :
    (["A", "B"].Perm ["B", "A"]) ∧
    (printedTrees [("A", ["x"])] ["A", "B"]).Perm (printedTrees [("A", ["x"])] ["B", "A"]) :=
  ⟨by decide,
    (c3_trees_up_to_root_order [("A", ["x"])] ["A", "B"] ["B", "A"] (by decide)).2.2⟩

/-- C10: when every parent key also occurs as some child (a pure parent
cycle), `find_roots` is empty and `build_trees` returns the empty forest with
no error; in general every root is a parent key occurring in no child set. -/
theorem c10_cycles_drop (m : List (String × List String)) (order : List String)
    (horder : order.Perm (m.map Prod.fst))
    (hcyc : ∀ k ∈ m.map Prod.fst, k ∈ childrenOf m) :
    find_roots order m = [] ∧ build_trees m order = [] ∧
    (∀ order' : List String, order'.Perm (m.map Prod.fst) →
      ∀ r ∈ find_roots order' m, r ∈ m.map Prod.fst ∧ ¬ r ∈ childrenOf m) := by
  have hroots : find_roots order m = [] := by
    unfold find_roots
    rw [List.filter_eq_nil_iff]
    intro a ha
    have hk : a ∈ m.map Prod.fst := horder.mem_iff.1 ha
    have hch := hcyc a hk
    simp [hch]
  refine ⟨hroots, ?_, ?_⟩
  · unfold build_trees
    rw [hroots]
    rfl
  · intro order2 hperm r hr
    have hmem := List.mem_filter.1 hr
    refine ⟨hperm.mem_iff.1 hmem.1, ?_⟩
    have h2 := hmem.2
    simp at h2
    exact h2

/-- Concrete instantiation of `c10_cycles_drop` on the two-cycle `A ↔ B`. -/
theorem c10_cycles_drop_witness :
    (["A", "B"].Perm (([("A", ["B"]), ("B", ["A"])]).map Prod.fst)) ∧
    (∀ k ∈ ([("A", ["B"]), ("B", ["A"])]).map Prod.fst,
      k ∈ childrenOf [("A", ["B"]), ("B", ["A"])]) ∧
    find_roots ["A", "B"] [("A", ["B"]), ("B", ["A"])] = [] ∧
    build_trees [("A", ["B"]), ("B", ["A"])] ["A", "B"] = [] :=
  ⟨by decide, by decide,
    (c10_cycles_drop [("A", ["B"]), ("B", ["A"])] ["A", "B"] (by decide) (by decide)).1,
    (c10_cycles_drop [("A", ["B"]), ("B", ["A"])] ["A", "B"] (by decide) (by decide)).2.1⟩

theorem lookupM_insertsOf_of_not_mem (k : String) (kvs : List (String × α)) :
    ∀ base, ¬ k ∈ kvs.map Prod.fst → lookupM k (insertsOf kvs base) = lookupM k base := by
  induction kvs with
  | nil => intro base _; rfl
  | cons p rest ih =>
    intro base hk
    have hk1 : k ≠ p.1 := fun h => hk (by simp [h])
    have hk2 : ¬ k ∈ rest.map Prod.fst := fun h => hk (by simp [h])
    calc lookupM k (insertsOf (p :: rest) base)
        = lookupM k (insertsOf rest (mapInsert p.1 p.2 base)) := rfl
      _ = lookupM k (mapInsert p.1 p.2 base) := ih _ hk2
      _ = lookupM k base := lookupM_mapInsert_ne k p.1 hk1 p.2 base

theorem lookupM_insertsOf_mem (k : String) (v : α) (kvs : List (String × α)) :
    ∀ base, (kvs.map Prod.fst).Nodup → (k, v) ∈ kvs →
      lookupM k (insertsOf kvs base) = some v := by
  induction kvs with
  | nil => intro base _ h; cases h
  | cons p rest ih =>
    intro base hnd hm
    obtain ⟨k2, v2⟩ := p
    have hnd' : (k2 :: rest.map Prod.fst).Nodup := by
      rw [List.map_cons] at hnd
      exact hnd
    have hnd2 := List.nodup_cons.1 hnd'
    rcases List.mem_cons.1 hm with heq | hm2
    · obtain ⟨hk, hv⟩ := Prod.mk.injEq .. ▸ heq
      subst hk
      subst hv
      calc lookupM k (insertsOf ((k, v) :: rest) base)
          = lookupM k (insertsOf rest (mapInsert k v base)) := rfl
        _ = lookupM k (mapInsert k v base) :=
            lookupM_insertsOf_of_not_mem k rest _ hnd2.1
        _ = some v := lookupM_mapInsert_self k v base
    · exact ih _ hnd2.2 hm2

theorem runStems_benign (g : String → Except String UAsset) (s : String)
    (A : String → UAsset) (P F : String → String) :
    ∀ (ext : List (String × List String)),
    (∀ f e, (f, e) ∈ ext → isCompleteB e = true →
       g (chooseName f e) = Except.ok (A f) ∧
       normalizePath s f = Except.ok (P f) ∧
       (∃ q, get_parent_path (A f) = Except.ok q) ∧
       get_full_path (P f) (A f) = Except.ok (F f)) →
    ∀ st0, ∃ st, runStems g s ext st0 = Except.ok st ∧
      st.asset_types = insertsOf
        ((ext.filter (fun fe => isCompleteB fe.2)).map (fun fe => (F fe.1, get_type (A fe.1))))
        st0.asset_types := by
  intro ext
  induction ext with
  | nil => intro _ st0; exact ⟨st0, rfl, rfl⟩
  | cons fe rest ih =>
    intro hben st0
    obtain ⟨f, e⟩ := fe
    have hbenRest : ∀ f2 e2, (f2, e2) ∈ rest → isCompleteB e2 = true →
        g (chooseName f2 e2) = Except.ok (A f2) ∧
        normalizePath s f2 = Except.ok (P f2) ∧
        (∃ q, get_parent_path (A f2) = Except.ok q) ∧
        get_full_path (P f2) (A f2) = Except.ok (F f2) :=
      fun f2 e2 hm hc2 => hben f2 e2 (List.mem_cons_of_mem _ hm) hc2
    by_cases hc : isCompleteB e = true
    · obtain ⟨hg, hp, ⟨q, hq⟩, hF⟩ := hben f e (List.mem_cons_self _ _) hc
      cases hr : get_root_export (A f) with
      | error m =>
        exfalso
        unfold get_full_path at hF
        rw [hr, exceptBind_error] at hF
        cases hF
      | ok r =>
        have hfull : P f ++ "." ++ r.2.objectName = F f := by
          unfold get_full_path at hF
          rw [hr, exceptBind_ok] at hF
          injection hF
        have hstep := stepStem_complete g s st0 f e (A f) (P f) q r hc hg hp hq hr
        rw [hfull] at hstep
        obtain ⟨st, hrun, hat⟩ := ih hbenRest _
        refine ⟨st, ?_, ?_⟩
        · rw [runStems_cons_ok g s f e rest st0 _ hstep]
          exact hrun
        · rw [hat]
          have hfilter : (((f, e) :: rest).filter (fun fe => isCompleteB fe.2)) =
              (f, e) :: rest.filter (fun fe => isCompleteB fe.2) := by
            simp [List.filter_cons, hc]
          rw [hfilter]
          rfl
    · have hcf : isCompleteB e = false := by
        cases hval : isCompleteB e
        · rfl
        · exact absurd hval hc
      have hfilter : (((f, e) :: rest).filter (fun fe => isCompleteB fe.2)) =
          rest.filter (fun fe => isCompleteB fe.2) := by
        simp [List.filter_cons, hcf]
      by_cases hs : isSplitB e = true
      · obtain ⟨st, hrun, hat⟩ := ih hbenRest
          (RunState.mk
            (e.foldl (fun sp x => setInsert (withExtension (joinStr s f) x) sp) st0.split_pairs)
            st0.hierarchy st0.asset_types)
        refine ⟨st, ?_, ?_⟩
        · rw [runStems_cons_ok g s f e rest st0 _ (stepStem_split g s st0 f e hs)]
          exact hrun
        · rw [hat, hfilter]
      · have hsf : isSplitB e = false := by
          cases hval : isSplitB e
          · rfl
          · exact absurd hval hs
        obtain ⟨st, hrun, hat⟩ := ih hbenRest st0
        refine ⟨st, ?_, ?_⟩
        · rw [runStems_cons_ok g s f e rest st0 _ (stepStem_other g s st0 f e hsf hcf)]
          exact hrun
        · rw [hat, hfilter]

/-- C1 amended: only the class-name lookup step is isolated. When every
complete pair of a run parses, normalizes and resolves its parent reference
successfully, the run completes without aborting and every complete pair's
full path is listed in `asset_types` with exactly its `get_type` result; an
asset whose class-import lookup fails therefore appears with an error value,
which the verification classifier maps to tier Unknown, while all sibling
stems are still processed. (A parse failure, by contrast, aborts the whole
run — see the counterexample.) -/
theorem c1_unknown_isolation (g : String → Except String UAsset) (s : String)
    (ext : List (String × List String)) (A : String → UAsset) (P F : String → String)
    (hben : ∀ f e, (f, e) ∈ ext → isCompleteB e = true →
       g (chooseName f e) = Except.ok (A f) ∧
       normalizePath s f = Except.ok (P f) ∧
       (∃ q, get_parent_path (A f) = Except.ok q) ∧
       get_full_path (P f) (A f) = Except.ok (F f))
    (hnd : ((ext.filter (fun fe => isCompleteB fe.2)).map (fun fe => F fe.1)).Nodup) :
    ∃ st, runStems g s ext initState = Except.ok st ∧
      ∀ f e, (f, e) ∈ ext → isCompleteB e = true →
        lookupM (F f) st.asset_types = some (get_type (A f)) ∧
        ∀ msg, get_type (A f) = Except.error msg →
          (rowOf (F f, get_type (A f))).1 = AutoVerify.Unknown := by
  obtain ⟨st, hrun, hat⟩ := runStems_benign g s A P F ext hben initState
  refine ⟨st, hrun, ?_⟩
  intro f e hm hc
  constructor
  · rw [hat]
    apply lookupM_insertsOf_mem
    · rw [List.map_map]
      exact hnd
    · exact List.mem_map_of_mem _ (List.mem_filter.2 ⟨hm, hc⟩)
  · intro msg hmsg
    rw [hmsg]
    rfl

/-- Concrete instantiation of `c1_unknown_isolation`: asset `A` parses but has
no resolvable class import, so it is listed with the error (tier Unknown)
while its sibling `B` is still processed and listed with its class. -/
theorem c1_unknown_isolation_witness :
    ((extTwoStems.filter (fun fe => isCompleteB fe.2)).map
      (fun fe => (fun f => if f = "FSD/Content/A" then "/Game/A.RootA" else "/Game/B.RootB")
        fe.1)).Nodup ∧
    (∃ st, runStems gBadClass "" extTwoStems initState = Except.ok st ∧
      lookupM "/Game/A.RootA" st.asset_types = some (Except.error "missing class import") ∧
      lookupM "/Game/B.RootB" st.asset_types = some (Except.ok "Texture2D")) := by
  refine ⟨by decide, ?_⟩
  obtain ⟨st, hrun, hprop⟩ := c1_unknown_isolation gBadClass "" extTwoStems
    (fun f => if f = "FSD/Content/A" then assetBadClass else assetGood)
    (fun f => if f = "FSD/Content/A" then "/Game/A" else "/Game/B")
    (fun f => if f = "FSD/Content/A" then "/Game/A.RootA" else "/Game/B.RootB")
    (by
      intro f e hm hc
      simp only [extTwoStems, List.mem_cons, List.not_mem_nil, or_false,
        Prod.mk.injEq] at hm
      rcases hm with ⟨rfl, rfl⟩ | ⟨rfl, rfl⟩
      · exact ⟨rfl, rfl, ⟨none, rfl⟩, rfl⟩
      · exact ⟨rfl, rfl, ⟨none, rfl⟩, rfl⟩)
    (by decide)
  exact ⟨st, hrun,
    (hprop "FSD/Content/A" ["uasset", "uexp"] (by decide) (by decide)).1,
    (hprop "FSD/Content/B" ["uasset", "uexp"] (by decide) (by decide)).1⟩

theorem isExtraneousEntry_iff (f : String) :
    isExtraneousEntry f = true ↔
      (extensionOf f = none ∨
        ∃ ex, extensionOf f = some ex ∧ valid_extensions.contains ex = false) := by
  unfold isExtraneousEntry
  cases hx : extensionOf f with
  | none => simp
  | some ex => simp [hx, Bool.not_eq_true']

theorem mem_extraneousRaw (files : List String) (x : String) :
    x ∈ extraneousRaw files ↔ x ∈ files ∧ isExtraneousEntry x = true := by
  have aux : ∀ (l : List String) (acc : List String) (x : String),
      x ∈ l.foldl (fun acc f => if isExtraneousEntry f then setInsert f acc else acc) acc ↔
      x ∈ acc ∨ (x ∈ l ∧ isExtraneousEntry x = true) := by
    intro l
    induction l with
    | nil => intro acc x; simp
    | cons f rest ih =>
      intro acc x
      by_cases hf : isExtraneousEntry f = true
      · simp only [List.foldl_cons, hf, if_true, ih, mem_setInsert, List.mem_cons]
        constructor
        · rintro ((rfl | hacc) | ⟨hrest, hex⟩)
          · exact Or.inr ⟨Or.inl rfl, hf⟩
          · exact Or.inl hacc
          · exact Or.inr ⟨Or.inr hrest, hex⟩
        · rintro (hacc | ⟨rfl | hrest, hex⟩)
          · exact Or.inl (Or.inr hacc)
          · exact Or.inl (Or.inl rfl)
          · exact Or.inr ⟨hrest, hex⟩
      · have hff : isExtraneousEntry f = false := by
          cases hval : isExtraneousEntry f
          · rfl
          · exact absurd hval hf
        simp only [List.foldl_cons, hff, if_false, ih, List.mem_cons, Bool.false_eq_true]
        constructor
        · rintro (hacc | ⟨hrest, hex⟩)
          · exact Or.inl hacc
          · exact Or.inr ⟨Or.inr hrest, hex⟩
        · rintro (hacc | ⟨rfl | hrest, hex⟩)
          · exact Or.inl hacc
          · exact absurd hex (by rw [hff]; decide)
          · exact Or.inr ⟨hrest, hex⟩
  unfold extraneousRaw
  rw [aux files [] x]
  simp

/-- C9: an entry is reported as extraneous iff its extension is missing or
outside the allow-list, except when its mount-joined path equals the single
hard-coded exemption `FSD/AssetRegistry.bin`. -/
theorem c9_extraneous (s : String) (files : List String) (y : String) :
    y ∈ extraneousFiles s files ↔
      (∃ f, f ∈ files ∧
        (extensionOf f = none ∨
          ∃ ex, extensionOf f = some ex ∧ valid_extensions.contains ex = false) ∧
        y = joinStr s f) ∧
      y ≠ "FSD/AssetRegistry.bin" := by
  have aux : ∀ (l : List String) (acc : List String) (y : String),
      y ∈ l.foldl (fun acc f =>
        if joinStr s f = "FSD/AssetRegistry.bin" then acc else setInsert (joinStr s f) acc) acc ↔
      y ∈ acc ∨ ((∃ f ∈ l, y = joinStr s f) ∧ y ≠ "FSD/AssetRegistry.bin") := by
    intro l
    induction l with
    | nil => intro acc y; simp
    | cons f rest ih =>
      intro acc y
      by_cases hf : joinStr s f = "FSD/AssetRegistry.bin"
      · simp only [List.foldl_cons, hf, if_pos rfl, ih, List.mem_cons]
        constructor
        · rintro (hacc | ⟨⟨f2, hf2, rfl⟩, hne⟩)
          · exact Or.inl hacc
          · exact Or.inr ⟨⟨f2, Or.inr hf2, rfl⟩, hne⟩
        · rintro (hacc | ⟨⟨f2, rfl | hf2, rfl⟩, hne⟩)
          · exact Or.inl hacc
          · exact absurd hf hne
          · exact Or.inr ⟨⟨f2, hf2, rfl⟩, hne⟩
      · simp only [List.foldl_cons, if_neg hf, ih, mem_setInsert, List.mem_cons]
        constructor
        · rintro ((rfl | hacc) | ⟨⟨f2, hf2, rfl⟩, hne⟩)
          · exact Or.inr ⟨⟨f, Or.inl rfl, rfl⟩, hf⟩
          · exact Or.inl hacc
          · exact Or.inr ⟨⟨f2, Or.inr hf2, rfl⟩, hne⟩
        · rintro (hacc | ⟨⟨f2, rfl | hf2, rfl⟩, hne⟩)
          · exact Or.inl (Or.inr hacc)
          · exact Or.inl (Or.inl rfl)
          · exact Or.inr ⟨⟨f2, hf2, rfl⟩, hne⟩
  unfold extraneousFiles
  rw [aux (extraneousRaw files) [] y]
  simp only [List.not_mem_nil, false_or]
  constructor
  · rintro ⟨⟨f, hf, rfl⟩, hne⟩
    have := (mem_extraneousRaw files f).1 hf
    exact ⟨⟨f, this.1, (isExtraneousEntry_iff f).1 this.2, rfl⟩, hne⟩
  · rintro ⟨⟨f, hf, hex, rfl⟩, hne⟩
    exact ⟨⟨f, (mem_extraneousRaw files f).2 ⟨hf, (isExtraneousEntry_iff f).2 hex⟩, rfl⟩, hne⟩

/-- Concrete instantiation of `c9_extraneous`: a `.txt` file is reported, the
exempted registry path is not. -/
theorem c9_extraneous_witness :
    "junk.txt" ∈ extraneousFiles "" ["junk.txt", "FSD/AssetRegistry.bin"] ∧
    ¬ "FSD/AssetRegistry.bin" ∈ extraneousFiles "" ["junk.txt", "FSD/AssetRegistry.bin"] :=
  ⟨(c9_extraneous "" ["junk.txt", "FSD/AssetRegistry.bin"] "junk.txt").2
      ⟨⟨"junk.txt", by decide, Or.inr ⟨"txt", rfl, by decide⟩, rfl⟩, by decide⟩,
    fun h => by
      have := ((c9_extraneous "" ["junk.txt", "FSD/AssetRegistry.bin"]
        "FSD/AssetRegistry.bin").1 h).2
      exact this rfl⟩

theorem autoVerify_rank_inj (a b : AutoVerify) (h : a.rank = b.rank) : a = b := by
  cases a <;> cases b <;> first
    | rfl
    | exact absurd h (by decide)

theorem rowOf_typeRank (x : String × Except String String) :
    (rowOf x).2.1.rank = (if (rowOf x).1 = AutoVerify.Unknown then 1 else 0) := by
  obtain ⟨pa, t⟩ := x
  cases t with
  | ok c =>
    by_cases h : c ∈ auto_verified
    · simp [rowOf, h, AssetType.rank]
    · simp [rowOf, h, AssetType.rank]
  | error msg => simp [rowOf, AssetType.rank]

theorem rowLe_to_claimLe (r1 r2 : Row)
    (h1 : r1.2.1.rank = (if r1.1 = AutoVerify.Unknown then 1 else 0))
    (h2 : r2.2.1.rank = (if r2.1 = AutoVerify.Unknown then 1 else 0))
    (hle : rowLe r1 r2) : claimLe r1 r2 := by
  unfold rowLe at hle
  unfold claimLe
  rw [Prod.Lex.le_iff] at hle ⊢
  rcases hle with hlt | ⟨heq, hin⟩
  · exact Or.inl hlt
  · right
    refine ⟨heq, ?_⟩
    have htier : r1.1 = r2.1 := autoVerify_rank_inj _ _ heq
    rw [Prod.Lex.le_iff] at hin
    rcases hin with hlt2 | ⟨_, hin2⟩
    · rw [h1, h2, htier] at hlt2
      exact absurd hlt2 (lt_irrefl _)
    · exact hin2

/-- C8: every allow-listed class yields tier Pass, every known class outside
the allow-list tier Fail, every extraction error tier Unknown; every
`asset_types` entry appears as a row; and rows are sorted by tier
(`Pass < Fail < Unknown`), then class-or-error text, then asset path. -/
theorem c8_verification_table (m : List (String × Except String String)) :
    (sortRows m).Perm (rowsOf m) ∧
    (∀ pa c, (pa, Except.ok c) ∈ m → auto_verified.contains c = true →
        (AutoVerify.Pass, AssetType.Known c, pa) ∈ sortRows m) ∧
    (∀ pa c, (pa, Except.ok c) ∈ m → auto_verified.contains c = false →
        (AutoVerify.Fail, AssetType.Known c, pa) ∈ sortRows m) ∧
    (∀ pa msg, (pa, Except.error msg) ∈ m →
        (AutoVerify.Unknown, AssetType.Unknown msg, pa) ∈ sortRows m) ∧
    (∀ r, r ∈ sortRows m →
      (∃ c, r.2.1 = AssetType.Known c ∧ auto_verified.contains c = true ∧
        r.1 = AutoVerify.Pass) ∨
      (∃ c, r.2.1 = AssetType.Known c ∧ auto_verified.contains c = false ∧
        r.1 = AutoVerify.Fail) ∨
      (∃ msg, r.2.1 = AssetType.Unknown msg ∧ r.1 = AutoVerify.Unknown)) ∧
    List.Pairwise claimLe (sortRows m) := by
  have hperm : (sortRows m).Perm (rowsOf m) := List.perm_insertionSort rowLe (rowsOf m)
  refine ⟨hperm, ?_, ?_, ?_, ?_, ?_⟩
  · intro pa c hm hc
    have hmm : c ∈ auto_verified := by simpa using hc
    have : rowOf (pa, Except.ok c) ∈ rowsOf m := List.mem_map_of_mem rowOf hm
    rw [hperm.mem_iff]
    simpa [rowOf, hmm] using this
  · intro pa c hm hc
    have hmm : ¬ c ∈ auto_verified := by simpa using hc
    have : rowOf (pa, Except.ok c) ∈ rowsOf m := List.mem_map_of_mem rowOf hm
    rw [hperm.mem_iff]
    simpa [rowOf, hmm] using this
  · intro pa msg hm
    have : rowOf (pa, Except.error msg) ∈ rowsOf m := List.mem_map_of_mem rowOf hm
    rw [hperm.mem_iff]
    simpa [rowOf] using this
  · intro r hr
    obtain ⟨x, hx, rfl⟩ := List.mem_map.1 (hperm.mem_iff.1 hr)
    obtain ⟨pa, tt⟩ := x
    cases tt with
    | ok c =>
      by_cases hc : c ∈ auto_verified
      · exact Or.inl ⟨c, by simp [rowOf, hc], by simpa using hc, by simp [rowOf, hc]⟩
      · exact Or.inr (Or.inl ⟨c, by simp [rowOf, hc], by simpa using hc,
          by simp [rowOf, hc]⟩)
    | error msg => exact Or.inr (Or.inr ⟨msg, by simp [rowOf], by simp [rowOf]⟩)
  · have hsorted : List.Pairwise rowLe (sortRows m) :=
      List.sorted_insertionSort rowLe (rowsOf m)
    refine hsorted.imp_of_mem ?_
    intro a b ha hb hab
    obtain ⟨xa, _, rfl⟩ := List.mem_map.1 (hperm.mem_iff.1 ha)
    obtain ⟨xb, _, rfl⟩ := List.mem_map.1 (hperm.mem_iff.1 hb)
    exact rowLe_to_claimLe _ _ (rowOf_typeRank xa) (rowOf_typeRank xb) hab

/-- Concrete instantiation of the tier clauses of `c8_verification_table`. -/
theorem c8_verification_table_witness :
    auto_verified.contains "Texture2D" = true ∧
    auto_verified.contains "BlueprintGeneratedClass" = false ∧
    (AutoVerify.Pass, AssetType.Known "Texture2D", "/Game/T.T") ∈
      sortRows [("/Game/T.T", Except.ok "Texture2D"),
        ("/Game/B.B", Except.ok "BlueprintGeneratedClass"),
        ("/Game/U.U", Except.error "failed")] ∧
    (AutoVerify.Fail, AssetType.Known "BlueprintGeneratedClass", "/Game/B.B") ∈
      sortRows [("/Game/T.T", Except.ok "Texture2D"),
        ("/Game/B.B", Except.ok "BlueprintGeneratedClass"),
        ("/Game/U.U", Except.error "failed")] ∧
    (AutoVerify.Unknown, AssetType.Unknown "failed", "/Game/U.U") ∈
      sortRows [("/Game/T.T", Except.ok "Texture2D"),
        ("/Game/B.B", Except.ok "BlueprintGeneratedClass"),
        ("/Game/U.U", Except.error "failed")] :=
  ⟨by decide, by decide,
    (c8_verification_table _).2.1 "/Game/T.T" "Texture2D" (by simp) (by decide),
    (c8_verification_table _).2.2.1 "/Game/B.B" "BlueprintGeneratedClass" (by simp) (by decide),
    (c8_verification_table _).2.2.2.1 "/Game/U.U" "failed" (by simp)⟩

theorem owns_cons (k : String) (v : List Nat) (rest : List (String × List Nat))
    (pa : String) (i : Nat) :
    Owns ((k, v) :: rest) pa i ↔ (pa = k ∧ i ∈ v) ∨ Owns rest pa i := by
  unfold Owns
  constructor
  · rintro ⟨w, hw, hiw⟩
    rcases List.mem_cons.1 hw with heq | hw2
    · obtain ⟨hpa, hv⟩ := Prod.mk.injEq .. ▸ heq
      subst hpa
      subst hv
      exact Or.inl ⟨rfl, hiw⟩
    · exact Or.inr ⟨w, hw2, hiw⟩
  · rintro (⟨rfl, hiv⟩ | ⟨w, hw, hiw⟩)
    · exact ⟨v, List.mem_cons_self _ _, hiv⟩
    · exact ⟨w, List.mem_cons_of_mem _ hw, hiw⟩

theorem owns_pushOwner (f : String) (i0 : Nat) (m : List (String × List Nat))
    (pa : String) (i : Nat) :
    Owns (pushOwner f i0 m) pa i ↔ Owns m pa i ∨ (pa = f ∧ i = i0) := by
  induction m with
  | nil =>
    unfold pushOwner
    rw [owns_cons]
    unfold Owns
    simp
  | cons kv rest ih =>
    obtain ⟨k, v⟩ := kv
    unfold pushOwner
    by_cases hk : k = f
    · subst hk
      rw [if_pos rfl, owns_cons, owns_cons, List.mem_append, List.mem_singleton]
      tauto
    · rw [if_neg hk, owns_cons, owns_cons, ih]
      tauto

theorem owns_foldFiles (i0 : Nat) (files : List String) :
    ∀ m pa i, Owns (files.foldl (fun m file => pushOwner file i0 m) m) pa i ↔
      Owns m pa i ∨ (i = i0 ∧ pa ∈ files) := by
  induction files with
  | nil =>
    intro m pa i
    simp
  | cons f rest ih =>
    intro m pa i
    rw [List.foldl_cons, ih, owns_pushOwner, List.mem_cons]
    tauto

theorem owns_buildOwners (runs : List (Nat × List String)) (pa : String) (i : Nat) :
    Owns (buildOwners runs) pa i ↔ ∃ r ∈ runs, r.1 = i ∧ pa ∈ r.2 := by
  have aux : ∀ (l : List (Nat × List String)) (acc : List (String × List Nat)),
      Owns (l.foldl (fun acc r => r.2.foldl (fun m file => pushOwner file r.1 m) acc) acc) pa i ↔
      Owns acc pa i ∨ ∃ r ∈ l, r.1 = i ∧ pa ∈ r.2 := by
    intro l
    induction l with
    | nil => intro acc; simp
    | cons r0 rest ih =>
      intro acc
      rw [List.foldl_cons, ih, owns_foldFiles]
      constructor
      · rintro ((hacc | ⟨rfl, hpa⟩) | ⟨r, hr, hri, hpar⟩)
        · exact Or.inl hacc
        · exact Or.inr ⟨r0, List.mem_cons_self _ _, rfl, hpa⟩
        · exact Or.inr ⟨r, List.mem_cons_of_mem _ hr, hri, hpar⟩
      · rintro (hacc | ⟨r, hr, hri, hpar⟩)
        · exact Or.inl (Or.inl hacc)
        · rcases List.mem_cons.1 hr with rfl | hr2
          · exact Or.inl (Or.inr ⟨hri.symm, hpar⟩)
          · exact Or.inr ⟨r, hr2, hri, hpar⟩
  have h0 : ¬ Owns [] pa i := by
    rintro ⟨v, hv, _⟩
    cases hv
  unfold buildOwners
  rw [aux runs []]
  tauto

theorem keys_pushOwner (f : String) (i0 : Nat) (m : List (String × List Nat)) :
    (pushOwner f i0 m).map Prod.fst =
      (if f ∈ m.map Prod.fst then m.map Prod.fst else m.map Prod.fst ++ [f]) := by
  induction m with
  | nil => simp [pushOwner]
  | cons kv rest ih =>
    obtain ⟨k, v⟩ := kv
    unfold pushOwner
    by_cases hk : k = f
    · subst hk
      simp
    · rw [if_neg hk]
      have hne : ¬ f = k := fun h => hk h.symm
      simp only [List.map_cons, ih, List.mem_cons]
      by_cases hf : f ∈ rest.map Prod.fst
      · simp [hf, hne]
      · simp [hf, hne]

theorem nodupKeys_pushOwner (f : String) (i0 : Nat) (m : List (String × List Nat))
    (h : (m.map Prod.fst).Nodup) : ((pushOwner f i0 m).map Prod.fst).Nodup := by
  rw [keys_pushOwner]
  by_cases hf : f ∈ m.map Prod.fst
  · rw [if_pos hf]
    exact h
  · rw [if_neg hf]
    rw [List.nodup_append]
    exact ⟨h, List.nodup_singleton f, by simpa using hf⟩

theorem nodupKeys_buildOwners (runs : List (Nat × List String)) :
    ((buildOwners runs).map Prod.fst).Nodup := by
  have aux : ∀ (l : List (Nat × List String)) (acc : List (String × List Nat)),
      (acc.map Prod.fst).Nodup →
      ((l.foldl (fun acc r => r.2.foldl (fun m file => pushOwner file r.1 m) acc) acc).map
        Prod.fst).Nodup := by
    intro l
    induction l with
    | nil => intro acc h; exact h
    | cons r0 rest ih =>
      intro acc h
      rw [List.foldl_cons]
      refine ih _ ?_
      have aux2 : ∀ (fs : List String) (acc2 : List (String × List Nat)),
          (acc2.map Prod.fst).Nodup →
          ((fs.foldl (fun m file => pushOwner file r0.1 m) acc2).map Prod.fst).Nodup := by
        intro fs
        induction fs with
        | nil => intro acc2 h2; exact h2
        | cons f2 rest2 ih2 =>
          intro acc2 h2
          rw [List.foldl_cons]
          exact ih2 _ (nodupKeys_pushOwner f2 r0.1 acc2 h2)
      exact aux2 r0.2 acc h
  exact aux runs [] (by simp)

theorem owns_of_perm (l1 l2 : List (String × List Nat)) (h : l1.Perm l2) (pa : String)
    (i : Nat) : Owns l1 pa i ↔ Owns l2 pa i := by
  unfold Owns
  constructor
  · rintro ⟨v, hv, hiv⟩
    exact ⟨v, h.mem_iff.1 hv, hiv⟩
  · rintro ⟨v, hv, hiv⟩
    exact ⟨v, h.mem_iff.2 hv, hiv⟩

/-- C5 counterexample: one container touching path `P` through three files of
one stem family yields three ownership records for one distinct owner, while
`Q` has two records of two distinct owners; the code sorts by record count, so
`Q` (2 distinct owners) is printed before `P` (1 distinct owner) — the rows
are not in ascending distinct-owner order. -/
theorem c5_counterexample :
    buildOwners [(1, ["P", "P", "P"]), (2, ["Q"]), (3, ["Q"])] =
      [("P", [1, 1, 1]), ("Q", [2, 3])] ∧
    sortOwners [("P", [1, 1, 1]), ("Q", [2, 3])] = [("Q", [2, 3]), ("P", [1, 1, 1])] ∧
    ¬ List.Pairwise (fun a b : String × List Nat => a.2.dedup.length ≤ b.2.dedup.length)
      (sortOwners [("P", [1, 1, 1]), ("Q", [2, 3])]) := by
  refine ⟨rfl, by decide, ?_⟩
  intro h
  have h2 := (List.pairwise_cons.1 (by rwa [show sortOwners [("P", [1, 1, 1]), ("Q", [2, 3])] =
    [("Q", [2, 3]), ("P", [1, 1, 1])] from by decide] at h)).1
    ("P", [1, 1, 1]) (List.mem_singleton_self _)
  exact absurd h2 (by decide)

/-- C5 amended: report rows are sorted by ascending count of ownership
RECORDS — one record per (container, file) occurrence, so a container pushing
several files of the same stem counts once per file — not by distinct-owner
count; each path has exactly one row regardless of processing order, and its
owner listing enumerates each distinct owning container exactly once, exactly
the containers that touched the path. -/
theorem c5_ownership_index (runs : List (Nat × List String))
    (base : List (String × List Nat)) (hperm : base.Perm (buildOwners runs)) :
    List.Pairwise ownerLe (sortOwners base) ∧
    ((sortOwners base).map Prod.fst).Nodup ∧
    (∀ row, row ∈ sortOwners base → row.2.dedup.Nodup ∧
      ∀ i, i ∈ row.2.dedup ↔ i ∈ row.2) ∧
    (∀ pa i, Owns (sortOwners base) pa i ↔ ∃ r ∈ runs, r.1 = i ∧ pa ∈ r.2) := by
  have hperm2 : (sortOwners base).Perm (buildOwners runs) :=
    (List.perm_insertionSort ownerLe base).trans hperm
  refine ⟨List.sorted_insertionSort ownerLe base, ?_, ?_, ?_⟩
  · rw [(hperm2.map Prod.fst).nodup_iff]
    exact nodupKeys_buildOwners runs
  · intro row _
    exact ⟨List.nodup_dedup row.2, fun i => List.mem_dedup⟩
  · intro pa i
    rw [owns_of_perm _ _ hperm2 pa i]
    exact owns_buildOwners runs pa i

/-- Concrete instantiation of `c5_ownership_index`: two containers touching
`/Game/X` yield one row whose deduplicated owner listing is exactly both. -/
theorem c5_ownership_index_witness :
    ([("/Game/X", [1, 2])].Perm (buildOwners [(1, ["/Game/X"]), (2, ["/Game/X"])])) ∧
    (((sortOwners [("/Game/X", [1, 2])]).map Prod.fst).Nodup ∧
      ∀ pa i, Owns (sortOwners [("/Game/X", [1, 2])]) pa i ↔
        ∃ r ∈ [(1, ["/Game/X"]), (2, ["/Game/X"])], r.1 = i ∧ pa ∈ r.2) :=
  ⟨by decide,
    (c5_ownership_index [(1, ["/Game/X"]), (2, ["/Game/X"])] [("/Game/X", [1, 2])]
      (by decide)).2.1,
    (c5_ownership_index [(1, ["/Game/X"]), (2, ["/Game/X"])] [("/Game/X", [1, 2])]
      (by decide)).2.2.2⟩

end DrgModTools
